import Mathlib

/-!
Verification of the analysis pipeline of the Skincare-Data-Analysis repository
(src/app.py) against its natural-language specification.

Strings are modelled as `List Char`; Python `str.lower()` is modelled as
character-wise `Char.toLower` (ASCII); the compound polarity score returned by
the external VADER sentiment scorer (a real number in [-1, 1]) is modelled as a
rational number `ℚ`, and the scorer itself as an opaque-to-the-theorems
function parameter `scorer : List Char → ℚ`.
-/

/-- Characters counted as word characters by the regexes `\b` and `\w`
in `app.py` (ASCII model of Python re word characters). -/
def isWordChar (c : Char) : Bool := c.isAlphanum || c == '_'

/-- Lowercasing of a string, modelling Python `str.lower()` (ASCII). -/
def lowerL (l : List Char) : List Char := l.map Char.toLower

/-- Word-character test on an optional character; a missing character (string
edge) counts as a non-word character, as in the regex `\b` semantics. -/
def optWord : Option Char → Bool
  | none => false
  | some c => isWordChar c

/-- The regex word-boundary test `\b` between two neighbouring positions:
it holds when exactly one side is a word character (string edges count as
non-word). -/
def atBoundary (prev cur : Option Char) : Bool := optWord prev != optWord cur

/-- The character standing just left of the position after `pat`, when `pat`
was matched right after the context character `prev`. -/
def lastCtx (pat : List Char) (prev : Option Char) : Option Char :=
  match pat.getLast? with
  | none => prev
  | some c => some c

/-- Test whether the regex `\b<pat>\b` (with `pat` a literal, as produced by
`re.escape`) matches at the current position of the text, where `prev` is the
character just before the current position (`none` at the start) and `s` is
the remaining text. From `re.search(r'\b' + re.escape(...) + r'\b', ...)` in
`analyze_product_mentions` (src/app.py line 49). -/
def matchHere (prev : Option Char) (pat s : List Char) : Bool :=
  pat.isPrefixOf s
    && atBoundary prev s.head?
    && atBoundary (lastCtx pat prev) ((s.drop pat.length).head?)

/-- Scan of all start positions of the text, modelling `re.search` for the
pattern `\b<pat>\b`: `prev` is the character just before the remaining text
`s`. -/
def searchFrom (pat : List Char) : Option Char → List Char → Bool
  | prev, [] => matchHere prev pat []
  | prev, c :: rest => matchHere prev pat (c :: rest) || searchFrom pat (some c) rest

/-- Whole-word regex search `re.search(r'\b' + re.escape(pat) + r'\b', text)`
(src/app.py line 49), for a literal pattern `pat`. -/
def reWordSearch (pat text : List Char) : Bool := searchFrom pat none text

/-- The product-match condition of `analyze_product_mentions`:
`re.search(r'\b' + re.escape(product.lower()) + r'\b', text.lower())`
(src/app.py line 49). -/
def wwMatchB (product text : List Char) : Bool :=
  reWordSearch (lowerL product) (lowerL text)

/-- Python substring containment `pat in l` for strings, as used for claim
keywords (src/app.py line 56). -/
def isSubstrOf (pat : List Char) : List Char → Bool
  | [] => pat.isPrefixOf []
  | c :: rest => pat.isPrefixOf (c :: rest) || isSubstrOf pat rest

/-- Sentiment bucketing of the compound polarity score (src/app.py
lines 51-53): at least 0.05 is Positive, at most -0.05 is Negative,
otherwise Mixed. The Python literal `0.05` is the rational `mkRat 5 100`
(an executable spelling of `5/100`). -/
def bucketSentiment (s : ℚ) : List Char :=
  if mkRat 5 100 ≤ s then "Positive".data
  else if s ≤ -(mkRat 5 100) then "Negative".data
  else "Mixed".data

/-- The default claim label (src/app.py line 54). -/
def generalSkincare : List Char := "General Skincare".data

/-- First-matching-category scan of `analyze_product_mentions`
(src/app.py lines 54-57): the default is `General Skincare`; categories are
scanned in declaration order and the first whose keyword set has a member
occurring as a substring of the lowered comment wins (the `break`). -/
def findClaim : List (List Char × List (List Char)) → List Char → List Char
  | [], _ => generalSkincare
  | (claim, kws) :: rest, tLow =>
      if kws.any (fun k => isSubstrOf k tLow) then claim else findClaim rest tLow

/-- One emitted mention record (src/app.py line 58): the dictionary with keys
Product Name, Platform Mentioned On, Most Common Use or Claim, User
Sentiment. -/
structure Mention where
  productName : List Char
  platform : List Char
  claim : List Char
  sentiment : List Char
deriving DecidableEq, Repr

/-- The mention record built for a matched (comment, product) pair
(src/app.py lines 50-58): sentiment is bucketed from the compound polarity
score of the full comment, the claim is the first matching category. -/
def mkMention (scorer : List Char → ℚ) (ck : List (List Char × List (List Char)))
    (platform text product : List Char) : Mention :=
  { productName := product
    platform := platform
    claim := findClaim ck (lowerL text)
    sentiment := bucketSentiment (scorer text) }

/-- The `product_mentions` list built by the two nested loops of
`analyze_product_mentions` (src/app.py lines 47-58): one record per
(comment, product) pair whose whole-word match succeeds, in loop order. -/
def productMentions (scorer : List Char → ℚ) (texts products : List (List Char))
    (ck : List (List Char × List (List Char))) (platform : List Char) : List Mention :=
  texts.flatMap (fun text =>
    (products.filter (fun p => wwMatchB p text)).map (mkMention scorer ck platform text))

/-- Number of calls of `sid.polarity_scores` in a run of
`analyze_product_mentions` (src/app.py line 50): the scorer is invoked exactly
once per (comment, product) pair that passes the whole-word match, and
nowhere else. -/
def scorerCalls (texts products : List (List Char)) : Nat :=
  (texts.map (fun text => (products.filter (fun p => wwMatchB p text)).length)).sum

/-- The `CLAIM_KEYWORDS` table (src/app.py lines 200-207), in declaration
order. -/
def CLAIM_KEYWORDS : List (List Char × List (List Char)) :=
  [("Fades Dark Spots / Hyperpigmentation".data,
      ["hyperpigmentation".data, "dark spots".data, "pih".data, "melasma".data,
       "even tone".data, "brighter".data]),
   ("Helps Acne / Breakouts".data,
      ["acne".data, "pimples".data, "breakouts".data, "clogged pores".data,
       "comedones".data]),
   ("Anti-Aging / Wrinkles".data,
      ["anti-aging".data, "wrinkles".data, "fine lines".data, "aging".data,
       "retinol".data, "tretinoin".data]),
   ("Hydration / Moisturizing".data,
      ["hydration".data, "dry skin".data, "moisture".data, "hydrating".data,
       "moisturizer".data, "plump".data]),
   ("Sun Protection".data,
      ["sunscreen".data, "spf".data, "sun protection".data, "uv".data,
       "white cast".data]),
   ("Improves Skin Texture".data,
      ["texture".data, "smooth".data, "bumpy".data, "keratosis pilaris".data,
       "kp".data, "pores".data])]

/-- The `STOP_WORDS` set (src/app.py lines 23-39), modelled as a list; only
membership is ever used. The final entries come from the `update` call. -/
def STOP_WORDS : List (List Char) :=
  ["a".data, "about".data, "above".data, "after".data, "again".data,
   "against".data, "all".data, "am".data, "an".data, "and".data, "any".data,
   "are".data, "aren\x27t".data, "as".data, "at".data,
   "be".data, "because".data, "been".data, "before".data, "being".data,
   "below".data, "between".data, "both".data, "but".data, "by".data,
   "can".data, "can\x27t".data, "cannot".data,
   "could".data, "couldn\x27t".data, "did".data, "didn\x27t".data, "do".data,
   "does".data, "doesn\x27t".data, "doing".data, "don".data, "don\x27t".data,
   "down".data, "during".data, "each".data,
   "few".data, "for".data, "from".data, "further".data, "had".data,
   "hadn\x27t".data, "has".data, "hasn\x27t".data, "have".data,
   "haven\x27t".data, "having".data, "he".data, "he\x27d".data,
   "he\x27ll".data, "he\x27s".data, "her".data, "here".data, "here\x27s".data,
   "hers".data, "herself".data, "him".data, "himself".data, "his".data,
   "how".data, "how\x27s".data, "i".data, "i\x27d".data,
   "i\x27ll".data, "i\x27m".data, "i\x27ve".data, "if".data, "in".data,
   "into".data, "is".data, "isn\x27t".data, "it".data, "it\x27s".data,
   "its".data, "itself".data, "let\x27s".data, "me".data, "more".data,
   "most".data, "mustn\x27t".data, "my".data, "myself".data, "no".data,
   "nor".data, "not".data, "of".data, "off".data, "on".data, "once".data,
   "only".data, "or".data, "other".data, "ought".data,
   "our".data, "ours".data, "ourselves".data, "out".data, "over".data,
   "own".data, "same".data, "shan".data, "shan\x27t".data, "she".data,
   "she\x27d".data, "she\x27ll".data, "she\x27s".data,
   "should".data, "shouldn\x27t".data, "so".data, "some".data, "such".data,
   "than".data, "that".data, "that\x27s".data, "the".data, "their".data,
   "theirs".data, "them".data,
   "themselves".data, "then".data, "there".data, "there\x27s".data,
   "these".data, "they".data, "they\x27d".data, "they\x27ll".data,
   "they\x27re".data, "they\x27ve".data, "this".data,
   "those".data, "through".data, "to".data, "too".data, "under".data,
   "until".data, "up".data, "very".data, "was".data, "wasn\x27t".data,
   "we".data, "we\x27d".data, "we\x27ll".data, "we\x27re".data,
   "we\x27ve".data, "were".data, "weren\x27t".data, "what".data,
   "what\x27s".data, "when".data, "when\x27s".data, "where".data,
   "where\x27s".data, "which".data, "while".data, "who".data,
   "who\x27s".data, "whom".data, "why".data, "why\x27s".data, "with".data,
   "won".data, "won\x27t".data, "would".data, "wouldn\x27t".data, "you".data,
   "you\x27d".data, "you\x27ll".data, "you\x27re".data,
   "you\x27ve".data, "your".data, "yours".data, "yourself".data,
   "yourselves".data,
   "skin".data, "product".data, "products".data, "use".data, "using".data,
   "like".data, "get".data, "help".data, "really".data, "ive".data,
   "im".data, "would".data, "routine".data, "feel".data, "look".data]

/-- Strict code-point comparison of characters, modelling Python string
comparison at the character level. -/
def charLtB (a b : Char) : Bool := decide (a < b)

/-- Lexicographic non-strict comparison of lists from a strict comparison of
elements; with `charLtB` this is Python string `<=`, and with `strLtB` it is
Python tuple `<=` as used by the pandas groupby key sort. -/
def lexLe {α : Type} [DecidableEq α] (lt : α → α → Bool) : List α → List α → Bool
  | [], _ => true
  | _ :: _, [] => false
  | a :: as, b :: bs => if a = b then lexLe lt as bs else lt a b

/-- Python string `<=` (lexicographic by code point). -/
def strLeB (a b : List Char) : Bool := lexLe charLtB a b

/-- Python string `<` (lexicographic by code point). -/
def strLtB (a b : List Char) : Bool := !(strLeB b a)

/-- The grouping key of a mention row: the four grouped columns of
`df.groupby(['Product Name', 'Platform Mentioned On',
'Most Common Use or Claim', 'User Sentiment'])` (src/app.py line 61). -/
def keyFields (m : Mention) : List (List Char) :=
  [m.productName, m.platform, m.claim, m.sentiment]

/-- Key comparison used to model the ascending lexicographic ordering that
pandas `groupby` (with its default `sort=True`) applies to the group keys. -/
def keyLe (x y : Mention) : Bool := lexLe strLtB (keyFields x) (keyFields y)

/-- Comparison placing rows with larger counts first, modelling
`sort_values(by='Approximate Number of Mentions', ascending=False)`
(src/app.py line 62). -/
def rowLe (r s : Mention × Nat) : Bool := decide (s.2 ≤ r.2)

/-- Insert an element into a list in front of the first entry it compares
no-worse than; building block of the stable sorts in this model. -/
def oInsert {α : Type} (le : α → α → Bool) (a : α) : List α → List α
  | [] => [a]
  | b :: l => if le a b then a :: b :: l else b :: oInsert le a l

/-- Stable insertion sort; used to model the sorting done by pandas
`groupby` (key-ascending) and `sort_values` (count-descending, ties keeping
their previous order) and by `Counter.most_common` (count-descending, ties in
first-insertion order). -/
def iSort {α : Type} (le : α → α → Bool) : List α → List α
  | [] => []
  | a :: l => oInsert le a (iSort le l)

/-- The grouped summary rows before the final sort, modelling
`df.groupby([...]).size().reset_index(name='Approximate Number of Mentions')`
(src/app.py line 61): one row per distinct (Product, Platform, Claim,
Sentiment) value, keys in ascending order, each with its number of
occurrences in the mention list. -/
def groupRows (ms : List Mention) : List (Mention × Nat) :=
  (iSort keyLe ms.dedup).map (fun m => (m, ms.count m))

/-- Test that a row list is sorted non-increasingly in the count column. -/
def sortedByCountDescB : List (Mention × Nat) → Bool
  | [] => true
  | [_] => true
  | a :: b :: l => decide (b.2 ≤ a.2) && sortedByCountDescB (b :: l)

/-- The full contract of
`sort_values(by='Approximate Number of Mentions', ascending=False)`
(src/app.py line 62): the output is a permutation of the rows,
non-increasing in the count column. The default sort kind `'quicksort'` is
documented by pandas as not stable, so the program fixes no order among rows
with equal counts; the sort is therefore modelled as an arbitrary function
satisfying this contract. -/
def SortValuesSpec (f : List (Mention × Nat) → List (Mention × Nat)) : Prop :=
  ∀ rows, (f rows).Perm rows ∧ sortedByCountDescB (f rows) = true

/-- One implementation satisfying `SortValuesSpec` (a stable descending
insertion sort), used to instantiate the concrete runs below; every concrete
conclusion drawn from those runs is independent of the order chosen among
tied counts. -/
def quicksortModel : List (Mention × Nat) → List (Mention × Nat) := iSort rowLe

/-- Another implementation satisfying `SortValuesSpec`: it stable-sorts the
reversed row list, so rows with equal counts come out in the reverse of
their input order. -/
def revTieSort (rows : List (Mention × Nat)) : List (Mention × Nat) :=
  iSort rowLe rows.reverse

/-- The full `analyze_product_mentions` pipeline (src/app.py lines 44-62):
build the mention list; if it is empty return the empty table; otherwise
group by the four columns and sort by count, descending. The descending sort
is `sort_values` with the default non-stable kind, so it is passed in as a
parameter `sortValues`; theorems about the sorted output assume only
`SortValuesSpec sortValues`. The returned rows are (grouped mention,
Approximate Number of Mentions) pairs. -/
def analyze_product_mentions (sortValues : List (Mention × Nat) → List (Mention × Nat))
    (scorer : List Char → ℚ)
    (texts products : List (List Char))
    (ck : List (List Char × List (List Char))) (platform : List Char) :
    List (Mention × Nat) :=
  let ms := productMentions scorer texts products ck platform
  if ms = [] then [] else sortValues (groupRows ms)

/-- Accumulator-based splitting of a string into maximal runs of word
characters, modelling `re.findall(r'\b\w+\b', text)`: each maximal run of
word characters is one token. -/
def wordRunsAux : List Char → List Char → List (List Char)
  | acc, [] => if acc = [] then [] else [acc.reverse]
  | acc, c :: rest =>
      if isWordChar c then wordRunsAux (c :: acc) rest
      else if acc = [] then wordRunsAux [] rest
      else acc.reverse :: wordRunsAux [] rest

/-- Tokenization `re.findall(r'\b\w+\b', text)` (src/app.py line 68). -/
def wordRuns (l : List Char) : List (List Char) := wordRunsAux [] l

/-- Tokens of one comment: `re.findall(r'\b\w+\b', text.lower())`
(src/app.py line 68). -/
def tokensOf (text : List Char) : List (List Char) := wordRuns (lowerL text)

/-- Token filter of `get_trending_keywords` (src/app.py line 68):
`word not in STOP_WORDS and len(word) > 2`. -/
def keepToken (w : List Char) : Bool :=
  !(STOP_WORDS.contains w) && decide (2 < w.length)

/-- The `all_words` list (src/app.py lines 66-69): retained tokens of all
comments concatenated, comment boundaries not preserved. -/
def allWords (texts : List (List Char)) : List (List Char) :=
  texts.flatMap (fun t => (tokensOf t).filter keepToken)

/-- The bigram list `list(zip(all_words, all_words[1:]))`
(src/app.py line 70). -/
def bigramsOf (texts : List (List Char)) : List (List Char × List Char) :=
  (allWords texts).zip (allWords texts).tail

/-- Fuel-driven worker for `firstUniq`; with fuel at least the length of the
list it returns the distinct elements in order of first occurrence. -/
def firstUniqAux {α : Type} [DecidableEq α] : Nat → List α → List α
  | _, [] => []
  | 0, _ :: _ => []
  | n + 1, a :: l => a :: firstUniqAux n (l.filter (fun x => decide (x ≠ a)))

/-- The distinct elements of a list in order of first occurrence, modelling
the iteration order of a Python `Counter` / the order of pandas
`Series.unique()`. -/
def firstUniq {α : Type} [DecidableEq α] (l : List α) : List α :=
  firstUniqAux l.length l

/-- Comparison placing bigrams with larger counts first, modelling the
ordering of `Counter.most_common` (src/app.py line 73). -/
def pairLe (x y : (List Char × List Char) × Nat) : Bool := decide (y.2 ≤ x.2)

/-- All bigrams with their frequencies, most frequent first and ties in
first-encountered order: `bigram_freq.most_common(...)` before the cut to 5
entries. `Counter.most_common` sorts the (element, count) pairs by count,
descending, stably over the first-insertion iteration order of the counter. -/
def rankedAll (texts : List (List Char)) : List ((List Char × List Char) × Nat) :=
  iSort pairLe
    ((firstUniq (bigramsOf texts)).map (fun b => (b, (bigramsOf texts).count b)))

/-- The five most frequent bigrams with counts: `bigram_freq.most_common(5)`
(src/app.py line 73). -/
def rankedBigrams (texts : List (List Char)) : List ((List Char × List Char) × Nat) :=
  (rankedAll texts).take 5

/-- The phrase of a bigram: `' '.join(phrase)` (src/app.py line 74). -/
def joinPhrase (b : List Char × List Char) : List Char := b.1 ++ ' ' :: b.2

/-- The default trend explanation (src/app.py line 75). -/
def baseExpl : List Char :=
  "High frequency in discussions suggests strong user interest.".data

/-- The active-ingredient trend explanation (src/app.py line 76). -/
def ingredientExpl : List Char :=
  "Trending due to its popularity as a powerful active ingredient.".data

/-- The sun-protection trend explanation (src/app.py line 77). -/
def sunExpl : List Char :=
  "A cornerstone of skincare, consistently discussed.".data

/-- The pigmentation trend explanation (src/app.py line 78). -/
def darkExpl : List Char :=
  "A common concern users are actively seeking solutions for.".data

/-- The explanation attached to a phrase (src/app.py lines 75-78): the three
`if` statements are applied in sequence without `elif`, so a later matching
rule overwrites an earlier one. -/
def explanationFor (keyword : List Char) : List Char :=
  let e1 := baseExpl
  let e2 :=
    if isSubstrOf "acid".data keyword || isSubstrOf "retin".data keyword then
      ingredientExpl
    else e1
  let e3 :=
    if isSubstrOf "sunscreen".data keyword || isSubstrOf "spf".data keyword then
      sunExpl
    else e2
  if isSubstrOf "dark spots".data keyword then darkExpl else e3

/-- The full `get_trending_keywords` pipeline (src/app.py lines 65-80),
returning (Trending Keyword, Reason for Trend) rows. -/
def get_trending_keywords (texts : List (List Char)) : List (List Char × List Char) :=
  (rankedBigrams texts).map
    (fun bc => (joinPhrase bc.1, explanationFor (joinPhrase bc.1)))

/-- Status string of a failed manufacturer search (src/app.py line 97). -/
def searchFailedStr : List Char := "Search Failed".data

/-- Note string of a failed manufacturer search (src/app.py line 97). -/
def errNote : List Char := "An error occurred during search.".data

/-- Status string when no link is found (src/app.py line 95). -/
def notFoundStr : List Char := "Not Found".data

/-- Note string when no link is found (src/app.py line 95). -/
def notFoundNote : List Char := "Could not automatically find a link.".data

/-- Note string of a successful manufacturer search (src/app.py line 94). -/
def successNote : List Char := "Successfully found a likely official link.".data

/-- The suffix of `l` after the last occurrence of `sep`, or `l` itself when
`sep` does not occur: `l.split(sep)[-1]` for a separator without
self-overlap, such as the literal `uddg=` used in `trace_manufacturer`. -/
def afterLastSep (sep l : List Char) : List Char :=
  match ((List.range (l.length + 1)).filter (fun i => sep.isPrefixOf (l.drop i))).getLast? with
  | none => l
  | some i => l.drop (i + sep.length)

/-- URL cleaning of `trace_manufacturer` (src/app.py line 93):
`requests.utils.unquote(link['href']).split("uddg=")[-1]`. The external
percent-decoder `requests.utils.unquote` is passed in as a function. -/
def cleanUrl (unquote : List Char → List Char) (href : List Char) : List Char :=
  afterLastSep "uddg=".data (unquote href)

/-- The search query string built by `trace_manufacturer`
(src/app.py line 85). -/
def searchQuery (productName : List Char) : List Char :=
  productName ++ " skincare official website".data

/-- Outcome of the network interaction of `trace_manufacturer`, abstracting
the external collaborators `requests` and BeautifulSoup: `failure` is any
`requests.RequestException` (connection error, timeout, or the `HTTPError`
raised by `raise_for_status()` for a non-success status); `ok tag?` is a
completed request and parse, where `tag?` is `none` when no
`<a class="result__a">` tag is found, and `some attr?` when the first such
tag exists, with `attr?` its `href` attribute value or `none` when the tag
carries no `href` attribute. -/
inductive NetResponse where
  | failure : NetResponse
  | ok : Option (Option (List Char)) → NetResponse
deriving DecidableEq, Repr

/-- The Python exception escaping `trace_manufacturer`: the `KeyError`
raised by `link['href']` on a tag without an `href` attribute, which the
`except requests.RequestException` clause does not catch. -/
inductive PyException where
  | keyError : PyException
deriving DecidableEq, Repr

/-- The `trace_manufacturer` function (src/app.py lines 82-97) over an
abstracted network outcome: on any request exception it returns the Search
Failed pair; on a parsed page with no result link it returns the Not Found
pair; when the first result link exists, `if link and link['href']`
evaluates `link['href']`, which raises an uncaught `KeyError` when the tag
has no `href` attribute (modelled as `Except.error`); with an `href` present
it returns the cleaned link for a non-empty value and the Not Found pair for
an empty one. -/
def trace_manufacturer (unquote : List Char → List Char) (net : NetResponse)
    (productName : List Char) : Except PyException (List Char × List Char) :=
  match net with
  | .failure => .ok (searchFailedStr, errNote)
  | .ok none => .ok (notFoundStr, notFoundNote)
  | .ok (some none) => .error .keyError
  | .ok (some (some href)) =>
      if href = [] then .ok (notFoundStr, notFoundNote)
      else .ok (cleanUrl unquote href, successNote)

/-- Observable events of the manufacturer-lookup loop
(src/app.py lines 228-234): a `trace_manufacturer` call for a product, or the
`time.sleep(0.5)` pause. -/
inductive TraceEvent where
  | lookup : List Char → TraceEvent
  | sleepHalfSec : TraceEvent
deriving DecidableEq, Repr

/-- The products chosen for manufacturer lookup:
`df_summary['Product Name'].unique()[:2]` (src/app.py line 230) — the first
two distinct product names in summary row order (`Series.unique` keeps first
occurrences in order of appearance). -/
def top_2_products (summary : List (Mention × Nat)) : List (List Char) :=
  (firstUniq (summary.map (fun r => r.1.productName))).take 2

/-- The event trace of the manufacturer-lookup block
(src/app.py lines 228-234): nothing when the summary is empty
(`if not df_summary.empty`); otherwise, for each of the top-2 products in
order, a lookup call followed by the half-second sleep. -/
def manufacturerPhase (summary : List (Mention × Nat)) : List TraceEvent :=
  if summary = [] then []
  else (top_2_products summary).flatMap
    (fun p => [TraceEvent.lookup p, TraceEvent.sleepHalfSec])

/-- The products looked up in an event trace, in call order. -/
def lookupTargets (evs : List TraceEvent) : List (List Char) :=
  evs.filterMap (fun e =>
    match e with
    | .lookup p => some p
    | .sleepHalfSec => none)

/-- Whether an event is a `trace_manufacturer` call. -/
def isLookup : TraceEvent → Bool
  | .lookup _ => true
  | .sleepHalfSec => false

/-- A product name whose lowered form begins and ends with a word character;
true of every entry of the product selection list of the app. For such
products the regex `\b...\b` match is exactly the bounded-occurrence
predicate `WholeWordIn`. -/
def wordEnds (p : List Char) : Bool :=
  optWord (lowerL p).head? && optWord (lowerL p).getLast?

/-- Specification-side whole-word occurrence: the lowered product occurs in
the lowered comment with a non-word character (or the string edge) on each
side. -/
def WholeWordIn (p t : List Char) : Prop :=
  ∃ pre post, lowerL t = pre ++ (lowerL p ++ post)
    ∧ optWord pre.getLast? = false ∧ optWord post.head? = false

/-- A constant sentiment scorer used for concrete runs of the pipeline. -/
def zeroScorer : List Char → ℚ := fun _ => 0

/-- Comments of a concrete analysis run: CeraVe is mentioned four times (two
claim groups of two), Tretinoin and Niacinamide three times each (one claim
group each). -/
def c9texts : List (List Char) :=
  ["cerave".data, "cerave".data, "cerave acne".data, "cerave acne".data,
   "tretinoin".data, "tretinoin".data, "tretinoin".data,
   "niacinamide".data, "niacinamide".data, "niacinamide".data]

/-- Products selected in the concrete run (all from `DEFAULT_PRODUCTS`). -/
def c9prods : List (List Char) :=
  ["CeraVe".data, "Niacinamide".data, "Tretinoin".data]

/-- Platform label of the concrete run. -/
def c9platform : List Char := "TikTok".data

/-- Summary of the concrete analysis run, under the `quicksortModel` sort
implementation; the conclusions drawn from it below (which products appear,
their total counts, and which products are looked up) hold under every
implementation satisfying `SortValuesSpec`, because the two count-3 rows
precede the two count-2 rows in every compliant order. -/
def c9summary : List (Mention × Nat) :=
  analyze_product_mentions quicksortModel zeroScorer c9texts c9prods CLAIM_KEYWORDS
    c9platform

/-- Comments of a concrete two-product run with tied row counts, used to
exhibit the unspecified tie order of the summary sort. -/
def c4texts : List (List Char) := ["cerave".data, "tretinoin".data]

/-- Products of the tied-count run (both from `DEFAULT_PRODUCTS`). -/
def c4prods : List (List Char) := ["CeraVe".data, "Tretinoin".data]

/-- Total number of mentions of a product in a summary: the sum of the counts
of its rows. -/
def productTotal (s : List (Mention × Nat)) (p : List Char) : Nat :=
  ((s.filter (fun r => r.1.productName == p)).map Prod.snd).sum

/-- Position of the first occurrence of an element in a list; used to express
the first-encountered tie-breaking order of `Counter.most_common`. -/
def firstIdx {α : Type} [DecidableEq α] (l : List α) (x : α) : Nat := l.indexOf x

theorem isPrefixOf_iff_ex {pat s : List Char} :
    pat.isPrefixOf s = true ↔ ∃ post, s = pat ++ post := by
  rw [List.isPrefixOf_iff_prefix]
  constructor
  · rintro ⟨t, ht⟩
    exact ⟨t, ht.symm⟩
  · rintro ⟨t, ht⟩
    exact ⟨t, ht.symm⟩

theorem isSubstrOf_iff (pat : List Char) :
    ∀ l, isSubstrOf pat l = true ↔ ∃ pre post, l = pre ++ (pat ++ post)
  | [] => by
      simp only [isSubstrOf, isPrefixOf_iff_ex]
      constructor
      · rintro ⟨post, h⟩
        exact ⟨[], post, by simpa using h⟩
      · rintro ⟨pre, post, h⟩
        have h' := h.symm
        rw [List.append_eq_nil] at h'
        obtain ⟨hpre, h2⟩ := h'
        rw [List.append_eq_nil] at h2
        exact ⟨post, by simp [h2.1, h2.2]⟩
  | c :: rest => by
      simp only [isSubstrOf, Bool.or_eq_true, isPrefixOf_iff_ex,
        isSubstrOf_iff pat rest]
      constructor
      · rintro (⟨post, h⟩ | ⟨pre, post, h⟩)
        · exact ⟨[], post, by simpa using h⟩
        · exact ⟨c :: pre, post, by simp [h]⟩
      · rintro ⟨pre, post, h⟩
        cases pre with
        | nil => exact Or.inl ⟨post, by simpa using h⟩
        | cons c' pre' =>
            simp only [List.cons_append, List.cons.injEq] at h
            exact Or.inr ⟨pre', post, h.2⟩

/-- C2: sentiment bucketing is a pure deterministic function of the compound
polarity score: a score of at least 0.05 gives Positive, at most -0.05 gives
Negative, anything strictly between gives Mixed; in particular 0.05 is
Positive, -0.05 is Negative and 0 is Mixed. -/
theorem claim_C2 : ∀ s : ℚ,
    ((5 : ℚ)/100 ≤ s → bucketSentiment s = "Positive".data)
    ∧ (s ≤ -((5 : ℚ)/100) → bucketSentiment s = "Negative".data)
    ∧ (-((5 : ℚ)/100) < s → s < (5 : ℚ)/100 → bucketSentiment s = "Mixed".data)
    ∧ bucketSentiment ((5 : ℚ)/100) = "Positive".data
    ∧ bucketSentiment (-((5 : ℚ)/100)) = "Negative".data
    ∧ bucketSentiment 0 = "Mixed".data := by
  have hm : mkRat 5 100 = (5 : ℚ)/100 := by
    rw [Rat.mkRat_eq_div]
    norm_num
  intro s
  refine ⟨?_, ?_, ?_, ?_, ?_, ?_⟩
  · intro h
    simp [bucketSentiment, hm, h]
  · intro h
    have h' : ¬ ((5 : ℚ)/100 ≤ s) := by linarith
    simp [bucketSentiment, hm, h, h']
  · intro h1 h2
    have h' : ¬ ((5 : ℚ)/100 ≤ s) := by linarith
    have h'' : ¬ (s ≤ -((5 : ℚ)/100)) := by linarith
    simp [bucketSentiment, hm, h', h'']
  · simp [bucketSentiment, hm]
  · have h' : ¬ ((5 : ℚ)/100 ≤ -((5 : ℚ)/100)) := by norm_num
    simp [bucketSentiment, hm, h']
  · have h' : ¬ ((5 : ℚ)/100 ≤ (0 : ℚ)) := by norm_num
    have h'' : ¬ ((0 : ℚ) ≤ -((5 : ℚ)/100)) := by norm_num
    simp [bucketSentiment, hm, h', h'']

theorem claim_C2_witness : bucketSentiment 0 = "Mixed".data :=
  (claim_C2 0).2.2.1 (by norm_num) (by norm_num)

theorem findClaim_spec (tLow : List Char) :
    ∀ ck : List (List Char × List (List Char)),
      ((∀ e ∈ ck, ∀ kw ∈ e.2, isSubstrOf kw tLow = false)
          ∧ findClaim ck tLow = generalSkincare)
      ∨ (∃ pre entry suf, ck = pre ++ entry :: suf
          ∧ (∃ kw ∈ entry.2, isSubstrOf kw tLow = true)
          ∧ (∀ e ∈ pre, ∀ kw ∈ e.2, isSubstrOf kw tLow = false)
          ∧ findClaim ck tLow = entry.1)
  | [] => Or.inl ⟨by simp, rfl⟩
  | (claim, kws) :: rest => by
      by_cases h : kws.any (fun k => isSubstrOf k tLow)
      · refine Or.inr ⟨[], (claim, kws), rest, rfl, ?_, by simp, by simp [findClaim, h]⟩
        simpa [List.any_eq_true] using h
      · have h' : ∀ kw ∈ kws, isSubstrOf kw tLow = false := by
          intro kw hkw
          by_contra hne
          exact h (List.any_eq_true.2 ⟨kw, hkw, by simpa using hne⟩)
        rcases findClaim_spec tLow rest with ⟨hall, heq⟩ | ⟨pre, entry, suf, hck, hm, hpre, heq⟩
        · refine Or.inl ⟨?_, by simp [findClaim, h, heq]⟩
          intro e he
          rcases List.mem_cons.1 he with he | he
          · intro kw hkw
            subst he
            exact h' kw hkw
          · exact hall e he
        · refine Or.inr ⟨(claim, kws) :: pre, entry, suf, by rw [hck]; simp, hm, ?_,
            by simp [findClaim, h, heq]⟩
          intro e he
          rcases List.mem_cons.1 he with he | he
          · intro kw hkw
            subst he
            exact h' kw hkw
          · exact hpre e he

theorem findClaim_mem_labels (tLow : List Char) :
    findClaim CLAIM_KEYWORDS tLow ∈ generalSkincare :: CLAIM_KEYWORDS.map Prod.fst := by
  rcases findClaim_spec tLow CLAIM_KEYWORDS with ⟨_, heq⟩ | ⟨pre, entry, suf, hck, _, _, heq⟩
  · simp [heq]
  · rw [heq]
    refine List.mem_cons_of_mem _ (List.mem_map_of_mem Prod.fst ?_)
    rw [hck]
    exact List.mem_append_right _ (List.mem_cons_self _ _)

/-- C3: for every comment, claim classification resolves to exactly one
label: either no category keyword occurs as a substring of the lowered
comment and the label is General Skincare, or the categories split as
pre ++ winner :: rest where the winner is the first (declaration-order)
category with a keyword occurring in the lowered comment and its name is the
label; hence every emitted mention carries one of the six category names or
the default. -/
theorem claim_C3 : ∀ text : List Char,
    (((∀ e ∈ CLAIM_KEYWORDS, ∀ kw ∈ e.2, ¬ ∃ a b, lowerL text = a ++ (kw ++ b))
        ∧ findClaim CLAIM_KEYWORDS (lowerL text) = generalSkincare)
     ∨ (∃ pre entry suf, CLAIM_KEYWORDS = pre ++ entry :: suf
          ∧ (∃ kw ∈ entry.2, ∃ a b, lowerL text = a ++ (kw ++ b))
          ∧ (∀ e ∈ pre, ∀ kw ∈ e.2, ¬ ∃ a b, lowerL text = a ++ (kw ++ b))
          ∧ findClaim CLAIM_KEYWORDS (lowerL text) = entry.1))
    ∧ findClaim CLAIM_KEYWORDS (lowerL text) ∈ generalSkincare :: CLAIM_KEYWORDS.map Prod.fst
    ∧ ∀ (scorer : List Char → ℚ) (texts prods : List (List Char)) (plat : List Char),
        ∀ m ∈ productMentions scorer texts prods CLAIM_KEYWORDS plat,
          m.claim ∈ generalSkincare :: CLAIM_KEYWORDS.map Prod.fst := by
  intro text
  have hf : ∀ kw, (isSubstrOf kw (lowerL text) = false) ↔
      ¬ ∃ a b, lowerL text = a ++ (kw ++ b) := by
    intro kw
    have h2 := isSubstrOf_iff kw (lowerL text)
    cases hb : isSubstrOf kw (lowerL text) <;> simp [hb] at h2 ⊢ <;> simpa using h2
  refine ⟨?_, findClaim_mem_labels (lowerL text), ?_⟩
  · rcases findClaim_spec (lowerL text) CLAIM_KEYWORDS with ⟨hall, heq⟩ |
      ⟨pre, entry, suf, hck, hm, hpre, heq⟩
    · refine Or.inl ⟨fun e he kw hkw => (hf kw).1 (hall e he kw hkw), heq⟩
    · refine Or.inr ⟨pre, entry, suf, hck, ?_, fun e he kw hkw => (hf kw).1 (hpre e he kw hkw), heq⟩
      obtain ⟨kw, hkw, hsub⟩ := hm
      exact ⟨kw, hkw, (isSubstrOf_iff kw (lowerL text)).1 hsub⟩
  · intro scorer texts prods plat m hm
    rcases List.mem_flatMap.1 hm with ⟨t, _, hm2⟩
    rcases List.mem_map.1 hm2 with ⟨p, _, rfl⟩
    exact findClaim_mem_labels (lowerL t)

theorem claim_C3_witness :
    findClaim CLAIM_KEYWORDS (lowerL ("my acne cleared".data)) ∈
      generalSkincare :: CLAIM_KEYWORDS.map Prod.fst :=
  (claim_C3 ("my acne cleared".data)).2.1

/-- C10: the explanation rules of `get_trending_keywords` are applied in
sequence without exclusivity, so the last matching rule wins: any phrase
containing "dark spots" gets the pigmentation explanation regardless of the
other triggers; without "dark spots", an SPF trigger beats an ingredient
trigger; and the generic fallback is attached exactly when no trigger
substring occurs in the phrase. -/
theorem claim_C10 : ∀ kw : List Char,
    (isSubstrOf "dark spots".data kw = true → explanationFor kw = darkExpl)
    ∧ (isSubstrOf "dark spots".data kw = false →
        (isSubstrOf "sunscreen".data kw = true ∨ isSubstrOf "spf".data kw = true) →
        explanationFor kw = sunExpl)
    ∧ (isSubstrOf "dark spots".data kw = false →
        isSubstrOf "sunscreen".data kw = false → isSubstrOf "spf".data kw = false →
        (isSubstrOf "acid".data kw = true ∨ isSubstrOf "retin".data kw = true) →
        explanationFor kw = ingredientExpl)
    ∧ (explanationFor kw = baseExpl ↔
        (isSubstrOf "acid".data kw = false ∧ isSubstrOf "retin".data kw = false
         ∧ isSubstrOf "sunscreen".data kw = false ∧ isSubstrOf "spf".data kw = false
         ∧ isSubstrOf "dark spots".data kw = false)) := by
  intro kw
  cases hA : isSubstrOf "acid".data kw <;>
    cases hR : isSubstrOf "retin".data kw <;>
      cases hS : isSubstrOf "sunscreen".data kw <;>
        cases hP : isSubstrOf "spf".data kw <;>
          cases hD : isSubstrOf "dark spots".data kw <;>
            simp [explanationFor, hA, hR, hS, hP, hD] <;> decide

theorem claim_C10_witness : explanationFor ("dark spots".data) = darkExpl :=
  (claim_C10 ("dark spots".data)).1 (by decide)

/-- C7: with an empty comment list, an empty product list, or no whole-word
product match in any comment, `analyze_product_mentions` returns the empty
result set and the sentiment scorer is never invoked; in general the number
of scorer invocations equals the number of matched (comment, product)
pairs. -/
theorem claim_C7 : ∀ (sortValues : List (Mention × Nat) → List (Mention × Nat))
    (scorer : List Char → ℚ) (texts prods : List (List Char))
    (ck : List (List Char × List (List Char))) (plat : List Char),
    (texts = [] ∨ prods = [] ∨ ∀ t ∈ texts, ∀ p ∈ prods, wwMatchB p t = false) →
    analyze_product_mentions sortValues scorer texts prods ck plat = []
    ∧ scorerCalls texts prods = 0
    ∧ scorerCalls texts prods = (productMentions scorer texts prods ck plat).length := by
  intro sortValues scorer texts prods ck plat h
  have hlen : scorerCalls texts prods = (productMentions scorer texts prods ck plat).length := by
    simp [scorerCalls, productMentions, List.length_flatMap, Function.comp_def,
      List.length_map]
  have hpm : productMentions scorer texts prods ck plat = [] := by
    rcases h with rfl | rfl | h
    · rfl
    · simp [productMentions]
    · rw [productMentions, List.flatMap_eq_nil_iff]
      intro t ht
      rw [List.filter_eq_nil_iff.2 (fun p hp => by simp [h t ht p hp]), List.map_nil]
  refine ⟨by simp [analyze_product_mentions, hpm], ?_, hlen⟩
  rw [hlen, hpm]
  rfl

theorem claim_C7_witness :
    analyze_product_mentions quicksortModel zeroScorer ["hello world".data] []
      CLAIM_KEYWORDS [] = []
    ∧ scorerCalls ["hello world".data] [] = 0 := by
  have h := claim_C7 quicksortModel zeroScorer ["hello world".data] [] CLAIM_KEYWORDS []
    (Or.inr (Or.inl rfl))
  exact ⟨h.1, h.2.1⟩

/-- C6: bigrams are formed on the concatenation of the retained tokens of all
comments, so for the two-comment input below the bigram pairing the last
qualifying token of the first comment with the first qualifying token of the
second comment is counted, and its phrase even surfaces in the returned
trending keywords. -/
theorem claim_C6 :
    (tokensOf ("vitamin serum".data)).filter keepToken
        = ["vitamin".data, "serum".data]
    ∧ (tokensOf ("sunscreen works".data)).filter keepToken
        = ["sunscreen".data, "works".data]
    ∧ ("serum".data, "sunscreen".data)
        ∈ bigramsOf ["vitamin serum".data, "sunscreen works".data]
    ∧ (bigramsOf ["vitamin serum".data, "sunscreen works".data]).count
        ("serum".data, "sunscreen".data) = 1
    ∧ ("serum".data ++ ' ' :: "sunscreen".data)
        ∈ (get_trending_keywords ["vitamin serum".data, "sunscreen works".data]).map
            Prod.fst := by
  refine ⟨by decide, by decide, by decide, by decide, by decide⟩

theorem lexLe_refl {α : Type} [DecidableEq α] (lt : α → α → Bool) :
    ∀ l, lexLe lt l l = true
  | [] => rfl
  | a :: as => by simp [lexLe, lexLe_refl lt as]

theorem lexLe_total {α : Type} [DecidableEq α] (lt : α → α → Bool)
    (hConn : ∀ a b, a ≠ b → lt a b = true ∨ lt b a = true) :
    ∀ l₁ l₂, lexLe lt l₁ l₂ = true ∨ lexLe lt l₂ l₁ = true
  | [], _ => Or.inl rfl
  | _ :: _, [] => Or.inr rfl
  | a :: as, b :: bs => by
      by_cases hab : a = b
      · subst hab
        simpa [lexLe] using lexLe_total lt hConn as bs
      · have hba : b ≠ a := fun h => hab h.symm
        simpa [lexLe, hab, hba] using hConn a b hab

theorem lexLe_trans {α : Type} [DecidableEq α] (lt : α → α → Bool)
    (hTrans : ∀ a b c, lt a b = true → lt b c = true → lt a c = true)
    (hAsymm : ∀ a b, lt a b = true → lt b a = true → False) :
    ∀ l₁ l₂ l₃, lexLe lt l₁ l₂ = true → lexLe lt l₂ l₃ = true → lexLe lt l₁ l₃ = true
  | [], _, _, _, _ => rfl
  | _ :: _, [], _, h₁, _ => by simp [lexLe] at h₁
  | _ :: _, _ :: _, [], _, h₂ => by simp [lexLe] at h₂
  | a :: as, b :: bs, c :: cs, h₁, h₂ => by
      by_cases hab : a = b <;> by_cases hbc : b = c
      · subst hab; subst hbc
        simp only [lexLe, if_pos rfl] at h₁ h₂ ⊢
        exact lexLe_trans lt hTrans hAsymm as bs cs h₁ h₂
      · subst hab
        simp only [lexLe, if_pos rfl] at h₁
        simpa [lexLe, hbc] using h₂
      · subst hbc
        simp only [lexLe, if_pos rfl] at h₂
        simpa [lexLe, hab] using h₁
      · simp only [lexLe, if_neg hab] at h₁
        simp only [lexLe, if_neg hbc] at h₂
        have hac : a ≠ c := by
          rintro rfl
          exact hAsymm a b h₁ h₂
        simpa [lexLe, hac] using hTrans a b c h₁ h₂

theorem lexLe_antisymm {α : Type} [DecidableEq α] (lt : α → α → Bool)
    (hAsymm : ∀ a b, lt a b = true → lt b a = true → False) :
    ∀ l₁ l₂, lexLe lt l₁ l₂ = true → lexLe lt l₂ l₁ = true → l₁ = l₂
  | [], [], _, _ => rfl
  | [], _ :: _, _, h₂ => by simp [lexLe] at h₂
  | _ :: _, [], h₁, _ => by simp [lexLe] at h₁
  | a :: as, b :: bs, h₁, h₂ => by
      by_cases hab : a = b
      · subst hab
        simp only [lexLe, if_pos rfl] at h₁ h₂
        rw [lexLe_antisymm lt hAsymm as bs h₁ h₂]
      · have hba : b ≠ a := fun h => hab h.symm
        simp only [lexLe, if_neg hab] at h₁
        simp only [lexLe, if_neg hba] at h₂
        exact (hAsymm a b h₁ h₂).elim

theorem charLtB_conn : ∀ a b : Char, a ≠ b → charLtB a b = true ∨ charLtB b a = true := by
  intro a b h
  rcases lt_or_gt_of_ne h with h' | h'
  · exact Or.inl (by simpa [charLtB] using h')
  · exact Or.inr (by simpa [charLtB] using h')

theorem charLtB_trans :
    ∀ a b c : Char, charLtB a b = true → charLtB b c = true → charLtB a c = true := by
  intro a b c h₁ h₂
  simp only [charLtB, decide_eq_true_eq] at h₁ h₂ ⊢
  exact lt_trans h₁ h₂

theorem charLtB_asymm : ∀ a b : Char, charLtB a b = true → charLtB b a = true → False := by
  intro a b h₁ h₂
  simp only [charLtB, decide_eq_true_eq] at h₁ h₂
  exact lt_asymm h₁ h₂

theorem strLeB_refl (l : List Char) : strLeB l l = true := lexLe_refl charLtB l

theorem strLeB_total (a b : List Char) : strLeB a b = true ∨ strLeB b a = true :=
  lexLe_total charLtB charLtB_conn a b

theorem strLeB_trans (a b c : List Char) :
    strLeB a b = true → strLeB b c = true → strLeB a c = true :=
  lexLe_trans charLtB charLtB_trans charLtB_asymm a b c

theorem strLeB_antisymm (a b : List Char) :
    strLeB a b = true → strLeB b a = true → a = b :=
  lexLe_antisymm charLtB charLtB_asymm a b

theorem strLtB_conn : ∀ a b : List Char, a ≠ b → strLtB a b = true ∨ strLtB b a = true := by
  intro a b h
  rcases Bool.eq_false_or_eq_true (strLeB b a) with hba | hba
  · rcases Bool.eq_false_or_eq_true (strLeB a b) with hab | hab
    · exact absurd (strLeB_antisymm a b hab hba) h
    · exact Or.inr (by simp [strLtB, hab])
  · exact Or.inl (by simp [strLtB, hba])

theorem strLtB_asymm : ∀ a b : List Char, strLtB a b = true → strLtB b a = true → False := by
  intro a b h₁ h₂
  simp only [strLtB, Bool.not_eq_true', Bool.not_eq_true] at h₁ h₂
  rcases strLeB_total a b with h | h
  · rw [h₂] at h; cases h
  · rw [h₁] at h; cases h

theorem strLtB_trans :
    ∀ a b c : List Char, strLtB a b = true → strLtB b c = true → strLtB a c = true := by
  intro a b c h₁ h₂
  simp only [strLtB, Bool.not_eq_true', Bool.not_eq_true] at h₁ h₂ ⊢
  by_contra hc
  have hca : strLeB c a = true := by
    cases h : strLeB c a
    · exact absurd h hc
    · rfl
  have hab : strLeB a b = true := by
    rcases strLeB_total a b with h | h
    · exact h
    · rw [h₁] at h; cases h
  have := strLeB_trans c a b hca hab
  rw [h₂] at this
  cases this

theorem keyLe_refl (m : Mention) : keyLe m m = true := lexLe_refl strLtB _

theorem keyLe_total (x y : Mention) : keyLe x y = true ∨ keyLe y x = true :=
  lexLe_total strLtB strLtB_conn _ _

theorem keyLe_trans (x y z : Mention) :
    keyLe x y = true → keyLe y z = true → keyLe x z = true :=
  lexLe_trans strLtB strLtB_trans strLtB_asymm _ _ _

theorem keyFields_inj : ∀ x y : Mention, keyFields x = keyFields y → x = y := by
  intro x y h
  cases x
  cases y
  simp only [keyFields, List.cons.injEq, and_true] at h
  obtain ⟨h1, h2, h3, h4⟩ := h
  simp [h1, h2, h3, h4]

theorem keyLe_antisymm (x y : Mention) :
    keyLe x y = true → keyLe y x = true → x = y := by
  intro h₁ h₂
  exact keyFields_inj x y (lexLe_antisymm strLtB strLtB_asymm _ _ h₁ h₂)

theorem perm_oInsert {α : Type} (le : α → α → Bool) (a : α) :
    ∀ l : List α, (oInsert le a l).Perm (a :: l)
  | [] => List.Perm.refl _
  | b :: l => by
      by_cases h : le a b = true
      · rw [oInsert, if_pos h]
      · rw [oInsert, if_neg h]
        exact ((perm_oInsert le a l).cons b).trans (List.Perm.swap a b l)

theorem perm_iSort {α : Type} (le : α → α → Bool) : ∀ l : List α, (iSort le l).Perm l
  | [] => List.Perm.refl _
  | a :: l => (perm_oInsert le a (iSort le l)).trans ((perm_iSort le l).cons a)

theorem mem_oInsert {α : Type} (le : α → α → Bool) (a x : α) (l : List α) :
    x ∈ oInsert le a l ↔ x = a ∨ x ∈ l := by
  rw [(perm_oInsert le a l).mem_iff, List.mem_cons]

theorem mem_iSort {α : Type} (le : α → α → Bool) (x : α) (l : List α) :
    x ∈ iSort le l ↔ x ∈ l :=
  (perm_iSort le l).mem_iff

theorem pairwise_oInsert {α : Type} (le : α → α → Bool)
    (hTot : ∀ a b, le a b = true ∨ le b a = true)
    (hTrans : ∀ a b c, le a b = true → le b c = true → le a c = true)
    (q : α → α → Prop) (a : α) :
    ∀ l : List α,
      l.Pairwise (fun x y => le x y = true ∧ (le y x = true → q x y)) →
      (∀ b ∈ l, le b a = true → q a b) →
      (oInsert le a l).Pairwise (fun x y => le x y = true ∧ (le y x = true → q x y))
  | [], _, _ => List.pairwise_singleton _ a
  | b :: l, hP, hS => by
      by_cases hab : le a b = true
      · rw [oInsert, if_pos hab]
        refine List.Pairwise.cons ?_ hP
        intro x hx
        rcases List.mem_cons.1 hx with rfl | hx
        · exact ⟨hab, fun hba => hS x (List.mem_cons_self _ _) hba⟩
        · have hbx := List.rel_of_pairwise_cons hP hx
          exact ⟨hTrans a b x hab hbx.1, fun hxa => hS x (List.mem_cons_of_mem _ hx) hxa⟩
      · rw [oInsert, if_neg hab]
        have hba : le b a = true := (hTot a b).resolve_left hab
        refine List.Pairwise.cons ?_
          (pairwise_oInsert le hTot hTrans q a l hP.of_cons
            (fun x hx hxa => hS x (List.mem_cons_of_mem _ hx) hxa))
        intro x hx
        rcases (mem_oInsert le a x l).1 hx with rfl | hx
        · exact ⟨hba, fun hab' => absurd hab' hab⟩
        · exact List.rel_of_pairwise_cons hP hx

theorem pairwise_iSort {α : Type} (le : α → α → Bool)
    (hTot : ∀ a b, le a b = true ∨ le b a = true)
    (hTrans : ∀ a b c, le a b = true → le b c = true → le a c = true)
    (q : α → α → Prop) :
    ∀ l : List α, l.Pairwise (fun x y => le y x = true → q x y) →
      (iSort le l).Pairwise (fun x y => le x y = true ∧ (le y x = true → q x y))
  | [], _ => List.Pairwise.nil
  | a :: l, hP => by
      refine pairwise_oInsert le hTot hTrans q a (iSort le l)
        (pairwise_iSort le hTot hTrans q l hP.of_cons) ?_
      intro b hb hba
      exact List.rel_of_pairwise_cons hP ((mem_iSort le b l).1 hb) hba

theorem rowLe_total (r s : Mention × Nat) : rowLe r s = true ∨ rowLe s r = true := by
  simp only [rowLe, decide_eq_true_eq]
  exact Nat.le_total s.2 r.2

theorem rowLe_trans (r s t : Mention × Nat) :
    rowLe r s = true → rowLe s t = true → rowLe r t = true := by
  simp only [rowLe, decide_eq_true_eq]
  omega

theorem pairLe_total (x y : (List Char × List Char) × Nat) :
    pairLe x y = true ∨ pairLe y x = true := by
  simp only [pairLe, decide_eq_true_eq]
  exact Nat.le_total y.2 x.2

theorem pairLe_trans (x y z : (List Char × List Char) × Nat) :
    pairLe x y = true → pairLe y z = true → pairLe x z = true := by
  simp only [pairLe, decide_eq_true_eq]
  omega

theorem mem_groupRows (ms : List Mention) (r : Mention × Nat) :
    r ∈ groupRows ms ↔ ∃ m ∈ ms, r = (m, ms.count m) := by
  simp only [groupRows, List.mem_map, mem_iSort, List.mem_dedup]
  constructor
  · rintro ⟨m, hm, rfl⟩
    exact ⟨m, hm, rfl⟩
  · rintro ⟨m, hm, rfl⟩
    exact ⟨m, hm, rfl⟩

theorem groupRows_pairwise_key (ms : List Mention) :
    (groupRows ms).Pairwise (fun r s => keyLe r.1 s.1 = true ∧ r.1 ≠ s.1) := by
  have h1 : ms.dedup.Pairwise (fun x y : Mention => keyLe y x = true → x ≠ y) := by
    refine (List.nodup_dedup ms).imp ?_
    exact fun h _ => h
  have h2 := pairwise_iSort keyLe keyLe_total keyLe_trans (fun x y : Mention => x ≠ y)
    ms.dedup h1
  have h3 : (iSort keyLe ms.dedup).Pairwise (fun x y => keyLe x y = true ∧ x ≠ y) := by
    refine h2.imp ?_
    intro x y h
    refine ⟨h.1, ?_⟩
    rcases Bool.eq_false_or_eq_true (keyLe y x) with hyx | hyx
    · exact h.2 hyx
    · intro he
      subst he
      rw [keyLe_refl x] at hyx
      cases hyx
  rw [groupRows, List.pairwise_map]
  exact h3

theorem sortedB_pairwise : ∀ l : List (Mention × Nat),
    sortedByCountDescB l = true → l.Pairwise (fun a b => b.2 ≤ a.2)
  | [], _ => List.Pairwise.nil
  | [a], _ => List.pairwise_singleton _ a
  | a :: b :: l, h => by
      simp only [sortedByCountDescB, Bool.and_eq_true, decide_eq_true_eq] at h
      have IH := sortedB_pairwise (b :: l) h.2
      refine List.Pairwise.cons ?_ IH
      intro x hx
      rcases List.mem_cons.1 hx with rfl | hx
      · exact h.1
      · exact le_trans (List.rel_of_pairwise_cons IH hx) h.1

theorem pairwise_sortedB : ∀ l : List (Mention × Nat),
    l.Pairwise (fun a b => b.2 ≤ a.2) → sortedByCountDescB l = true
  | [], _ => rfl
  | [_], _ => rfl
  | a :: b :: l, h => by
      simp only [sortedByCountDescB, Bool.and_eq_true, decide_eq_true_eq]
      exact ⟨List.rel_of_pairwise_cons h (List.mem_cons_self _ _),
        pairwise_sortedB (b :: l) h.of_cons⟩

theorem iSort_rowLe_sorted (l : List (Mention × Nat)) :
    sortedByCountDescB (iSort rowLe l) = true := by
  have htriv : l.Pairwise (fun x y : Mention × Nat => rowLe y x = true → True) := by
    induction l with
    | nil => exact List.Pairwise.nil
    | cons a l ih => exact List.Pairwise.cons (fun _ _ _ => trivial) ih
  have h := pairwise_iSort rowLe rowLe_total rowLe_trans (fun _ _ => True) l htriv
  refine pairwise_sortedB _ (h.imp ?_)
  intro a b hh
  simpa [rowLe] using hh.1

theorem quicksortModel_spec : SortValuesSpec quicksortModel := by
  intro rows
  exact ⟨perm_iSort rowLe rows, iSort_rowLe_sorted rows⟩

theorem revTieSort_spec : SortValuesSpec revTieSort := by
  intro rows
  exact ⟨(perm_iSort rowLe rows.reverse).trans (List.reverse_perm rows),
    iSort_rowLe_sorted _⟩

/-- C4 (amended): for every sort implementation within the contract of
`sort_values(ascending=False)` with its default non-stable kind (any
permutation of the rows that is non-increasing in the count column), the
summary returned by `analyze_product_mentions` groups the emitted mentions
by (Product, Platform, ClaimCategory, SentimentBucket): each row carries an
emitted mention value and its exact multiplicity, every emitted mention has
a row, the per-row counts sum to the total number of emitted mentions, and
the rows are sorted non-increasingly by count; no tie-break order among
equal counts is guaranteed. -/
theorem claim_C4 : ∀ (sortValues : List (Mention × Nat) → List (Mention × Nat)),
    SortValuesSpec sortValues →
    ∀ (scorer : List Char → ℚ) (texts prods : List (List Char))
      (ck : List (List Char × List (List Char))) (plat : List Char),
    (∀ r ∈ analyze_product_mentions sortValues scorer texts prods ck plat,
        r.1 ∈ productMentions scorer texts prods ck plat
        ∧ r.2 = (productMentions scorer texts prods ck plat).count r.1)
    ∧ (∀ m ∈ productMentions scorer texts prods ck plat,
        ∃ r ∈ analyze_product_mentions sortValues scorer texts prods ck plat, r.1 = m)
    ∧ ((analyze_product_mentions sortValues scorer texts prods ck plat).map
          Prod.snd).sum
        = (productMentions scorer texts prods ck plat).length
    ∧ (analyze_product_mentions sortValues scorer texts prods ck plat).Pairwise
        (fun r₁ r₂ => r₂.2 ≤ r₁.2) := by
  intro sortValues hspec scorer texts prods ck plat
  by_cases hms : productMentions scorer texts prods ck plat = []
  · rw [analyze_product_mentions, hms]
    simp [hms]
  · have hana : analyze_product_mentions sortValues scorer texts prods ck plat
        = sortValues (groupRows (productMentions scorer texts prods ck plat)) := by
      rw [analyze_product_mentions, if_neg hms]
    have hperm := (hspec (groupRows (productMentions scorer texts prods ck plat))).1
    refine ⟨?_, ?_, ?_, ?_⟩
    · intro r hr
      rw [hana, hperm.mem_iff, mem_groupRows] at hr
      obtain ⟨m, hm, rfl⟩ := hr
      exact ⟨hm, rfl⟩
    · intro m hm
      refine ⟨(m, (productMentions scorer texts prods ck plat).count m), ?_, rfl⟩
      rw [hana, hperm.mem_iff, mem_groupRows]
      exact ⟨m, hm, rfl⟩
    · rw [hana]
      have hmap := hperm.map Prod.snd
      rw [hmap.sum_eq]
      have hperm2 := (perm_iSort keyLe
        (productMentions scorer texts prods ck plat).dedup).map
        (fun m => (productMentions scorer texts prods ck plat).count m)
      rw [groupRows, List.map_map]
      have hcomp : (Prod.snd ∘ fun m : Mention =>
          (m, (productMentions scorer texts prods ck plat).count m))
          = fun m => (productMentions scorer texts prods ck plat).count m := rfl
      rw [hcomp, hperm2.sum_eq, List.sum_map_count_dedup_eq_length]
    · rw [hana]
      exact sortedB_pairwise _ (hspec _).2

/-- C4 counterexample: the claim asserts a stable tie-break preserving the
grouping order, but pandas documents the default sort kind of `sort_values`
as not stable, so the program guarantees only a count-sorted permutation of
the grouped rows. `revTieSort` satisfies that full contract
(`revTieSort_spec`; the first two conjuncts below check it at this input),
yet on a concrete run producing two rows with equal counts it returns them
in descending key order: the grouping order puts the CeraVe row before the
Tretinoin row, the sorted summary the other way around, so the
stable-tie-break conjunct fails. -/
theorem claim_C4_counterexample :
    (revTieSort (groupRows (productMentions zeroScorer c4texts c4prods CLAIM_KEYWORDS
        c9platform))).Perm
      (groupRows (productMentions zeroScorer c4texts c4prods CLAIM_KEYWORDS c9platform))
    ∧ sortedByCountDescB (revTieSort (groupRows (productMentions zeroScorer c4texts
        c4prods CLAIM_KEYWORDS c9platform))) = true
    ∧ ¬ (analyze_product_mentions revTieSort zeroScorer c4texts c4prods CLAIM_KEYWORDS
        c9platform).Pairwise
        (fun r₁ r₂ => r₂.2 ≤ r₁.2
          ∧ (r₁.2 = r₂.2 → (keyLe r₁.1 r₂.1 = true ∧ r₁.1 ≠ r₂.1))) := by
  refine ⟨by decide, by decide, by decide⟩

theorem claim_C4_witness :
    ((analyze_product_mentions quicksortModel zeroScorer c9texts c9prods CLAIM_KEYWORDS
        c9platform).map Prod.snd).sum
      = (productMentions zeroScorer c9texts c9prods CLAIM_KEYWORDS c9platform).length :=
  (claim_C4 quicksortModel quicksortModel_spec zeroScorer c9texts c9prods CLAIM_KEYWORDS
    c9platform).2.2.1

theorem indexOf_filter_lt {α : Type} [DecidableEq α] (p : α → Bool) :
    ∀ (l : List α) (x y : α), x ∈ l.filter p → y ∈ l.filter p →
      (l.filter p).indexOf x < (l.filter p).indexOf y → l.indexOf x < l.indexOf y
  | [], x, y, hx, _, _ => by simp at hx
  | c :: l, x, y, hx, hy, hlt => by
      by_cases hpc : p c = true
      · rw [List.filter_cons_of_pos hpc] at hx hy hlt
        by_cases hxc : x = c
        · subst hxc
          by_cases hyc : y = x
          · subst hyc
            rw [List.indexOf_cons_self] at hlt
            exact absurd hlt (Nat.not_lt_zero _)
          · rw [List.indexOf_cons_self]
            rw [List.indexOf_cons_ne l (fun h => hyc h.symm)]
            exact Nat.succ_pos _
        · by_cases hyc : y = c
          · subst hyc
            rw [List.indexOf_cons_self, List.indexOf_cons_ne _ (fun h => hxc h.symm)] at hlt
            exact absurd hlt (Nat.not_lt_zero _)
          · rw [List.indexOf_cons_ne _ (fun h => hxc h.symm),
              List.indexOf_cons_ne _ (fun h => hyc h.symm)] at hlt
            have hx2 : x ∈ l.filter p := by
              rcases List.mem_cons.1 hx with h | h
              · exact absurd h hxc
              · exact h
            have hy2 : y ∈ l.filter p := by
              rcases List.mem_cons.1 hy with h | h
              · exact absurd h hyc
              · exact h
            rw [List.indexOf_cons_ne l (fun h => hxc h.symm),
              List.indexOf_cons_ne l (fun h => hyc h.symm)]
            exact Nat.succ_lt_succ
              (indexOf_filter_lt p l x y hx2 hy2 (Nat.lt_of_succ_lt_succ hlt))
      · rw [List.filter_cons_of_neg (by simpa using hpc)] at hx hy hlt
        have hxc : x ≠ c := by
          intro h
          subst h
          exact hpc (List.mem_filter.1 hx).2
        have hyc : y ≠ c := by
          intro h
          subst h
          exact hpc (List.mem_filter.1 hy).2
        rw [List.indexOf_cons_ne l (fun h => hxc h.symm),
          List.indexOf_cons_ne l (fun h => hyc h.symm)]
        exact Nat.succ_lt_succ (indexOf_filter_lt p l x y hx hy hlt)

theorem mem_firstUniqAux {α : Type} [DecidableEq α] :
    ∀ (n : Nat) (l : List α), l.length ≤ n → ∀ x, (x ∈ firstUniqAux n l ↔ x ∈ l)
  | n, [], _, x => by cases n <;> simp [firstUniqAux]
  | 0, a :: l, h, x => by simp at h
  | n + 1, a :: l, h, x => by
      simp only [firstUniqAux, List.mem_cons]
      have hlen : (l.filter (fun y => decide (y ≠ a))).length ≤ n :=
        le_trans (List.length_filter_le _ _) (Nat.succ_le_succ_iff.1 h)
      rw [mem_firstUniqAux n _ hlen x]
      constructor
      · rintro (rfl | hx)
        · exact Or.inl rfl
        · exact Or.inr (List.mem_filter.1 hx).1
      · rintro (rfl | hx)
        · exact Or.inl rfl
        · by_cases hxa : x = a
          · exact Or.inl hxa
          · exact Or.inr (List.mem_filter.2 ⟨hx, by simp [hxa]⟩)

theorem mem_firstUniq {α : Type} [DecidableEq α] (l : List α) (x : α) :
    x ∈ firstUniq l ↔ x ∈ l :=
  mem_firstUniqAux l.length l le_rfl x

theorem pairwise_indexOf_firstUniqAux {α : Type} [DecidableEq α] :
    ∀ (n : Nat) (l : List α), l.length ≤ n →
      (firstUniqAux n l).Pairwise (fun x y => l.indexOf x < l.indexOf y)
  | n, [], _ => by cases n <;> simp [firstUniqAux]
  | 0, a :: l, h => by simp at h
  | n + 1, a :: l, h => by
      have hlen : (l.filter (fun y => decide (y ≠ a))).length ≤ n :=
        le_trans (List.length_filter_le _ _) (Nat.succ_le_succ_iff.1 h)
      simp only [firstUniqAux]
      refine List.Pairwise.cons ?_ ?_
      · intro b hb
        have hbf : b ∈ l.filter (fun y => decide (y ≠ a)) :=
          (mem_firstUniqAux n _ hlen b).1 hb
        have hba : b ≠ a := by simpa using (List.mem_filter.1 hbf).2
        rw [List.indexOf_cons_self, List.indexOf_cons_ne l (Ne.symm hba)]
        exact Nat.succ_pos _
      · have IH := pairwise_indexOf_firstUniqAux n (l.filter (fun y => decide (y ≠ a))) hlen
        refine List.Pairwise.imp_of_mem ?_ IH
        intro x y hx hy hxy
        have hxf := (mem_firstUniqAux n _ hlen x).1 hx
        have hyf := (mem_firstUniqAux n _ hlen y).1 hy
        have hl : l.indexOf x < l.indexOf y :=
          indexOf_filter_lt _ l x y hxf hyf hxy
        have hxa : x ≠ a := by simpa using (List.mem_filter.1 hxf).2
        have hya : y ≠ a := by simpa using (List.mem_filter.1 hyf).2
        rw [List.indexOf_cons_ne l (Ne.symm hxa), List.indexOf_cons_ne l (Ne.symm hya)]
        exact Nat.succ_lt_succ hl

theorem pairwise_indexOf_firstUniq {α : Type} [DecidableEq α] (l : List α) :
    (firstUniq l).Pairwise (fun x y => l.indexOf x < l.indexOf y) :=
  pairwise_indexOf_firstUniqAux l.length l le_rfl

theorem nodup_firstUniq {α : Type} [DecidableEq α] (l : List α) :
    (firstUniq l).Nodup := by
  refine (pairwise_indexOf_firstUniq l).imp ?_
  intro a b h he
  subst he
  exact absurd h (lt_irrefl _)

theorem allWords_keep (texts : List (List Char)) :
    ∀ w ∈ allWords texts, STOP_WORDS.contains w = false ∧ 2 < w.length := by
  intro w hw
  rcases List.mem_flatMap.1 hw with ⟨t, _, hw2⟩
  have hk := (List.mem_filter.1 hw2).2
  simpa [keepToken] using hk

theorem rankedAll_pairwise (texts : List (List Char)) :
    (rankedAll texts).Pairwise (fun x y => y.2 ≤ x.2
      ∧ (x.2 = y.2 → firstIdx (bigramsOf texts) x.1 < firstIdx (bigramsOf texts) y.1)) := by
  have h1 : ((firstUniq (bigramsOf texts)).map
      (fun b => (b, (bigramsOf texts).count b))).Pairwise
      (fun x y => firstIdx (bigramsOf texts) x.1 < firstIdx (bigramsOf texts) y.1) := by
    rw [List.pairwise_map]
    exact pairwise_indexOf_firstUniq (bigramsOf texts)
  have h1w : ((firstUniq (bigramsOf texts)).map
      (fun b => (b, (bigramsOf texts).count b))).Pairwise
      (fun x y => pairLe y x = true →
        firstIdx (bigramsOf texts) x.1 < firstIdx (bigramsOf texts) y.1) := by
    refine h1.imp ?_
    exact fun h _ => h
  have h2 := pairwise_iSort pairLe pairLe_total pairLe_trans
    (fun x y => firstIdx (bigramsOf texts) x.1 < firstIdx (bigramsOf texts) y.1) _ h1w
  refine h2.imp ?_
  intro x y h
  refine ⟨by simpa [pairLe] using h.1, ?_⟩
  intro heq
  exact h.2 (by simp [pairLe, heq])

/-- C5: `get_trending_keywords` returns at most 5 entries; every returned
phrase is the space-join of two retained tokens, so no stop-listed token and
no token of length at most 2 appears inside any returned phrase; the result
is empty when fewer than 2 qualifying tokens exist; the chosen entries carry
the exact bigram frequencies, are ordered non-increasingly by frequency with
ties in first-encountered order, and every bigram left out has a frequency no
larger than that of every chosen entry. -/
theorem claim_C5 : ∀ texts : List (List Char),
    (get_trending_keywords texts).length ≤ 5
    ∧ (∀ e ∈ get_trending_keywords texts, ∃ w1 w2 : List Char,
        e.1 = w1 ++ ' ' :: w2
        ∧ w1 ∈ allWords texts ∧ w2 ∈ allWords texts
        ∧ STOP_WORDS.contains w1 = false ∧ 2 < w1.length
        ∧ STOP_WORDS.contains w2 = false ∧ 2 < w2.length)
    ∧ ((allWords texts).length < 2 → get_trending_keywords texts = [])
    ∧ (∀ x ∈ rankedBigrams texts, x.2 = (bigramsOf texts).count x.1)
    ∧ (rankedBigrams texts).Pairwise (fun x y => y.2 ≤ x.2
        ∧ (x.2 = y.2 → firstIdx (bigramsOf texts) x.1 < firstIdx (bigramsOf texts) y.1))
    ∧ (∀ b ∈ bigramsOf texts, b ∉ (rankedBigrams texts).map Prod.fst →
        ∀ x ∈ rankedBigrams texts, (bigramsOf texts).count b ≤ x.2) := by
  intro texts
  have hrb : rankedBigrams texts = (rankedAll texts).take 5 := rfl
  refine ⟨?_, ?_, ?_, ?_, ?_, ?_⟩
  · simp only [get_trending_keywords, rankedBigrams, List.length_map, List.length_take]
    exact min_le_left _ _
  · intro e he
    simp only [get_trending_keywords, List.mem_map] at he
    obtain ⟨bc, hbc, rfl⟩ := he
    rw [hrb] at hbc
    have hbc2 := List.Sublist.mem hbc (List.take_sublist 5 (rankedAll texts))
    rw [rankedAll, mem_iSort] at hbc2
    obtain ⟨bg, hbg, rfl⟩ := List.mem_map.1 hbc2
    rcases bg with ⟨w1, w2⟩
    have hbg2 : (w1, w2) ∈ bigramsOf texts := (mem_firstUniq _ _).1 hbg
    rw [bigramsOf] at hbg2
    have hw := List.of_mem_zip hbg2
    have hw2 : w2 ∈ allWords texts := List.Sublist.mem hw.2 (List.tail_sublist _)
    have hq1 := allWords_keep texts w1 hw.1
    have hq2 := allWords_keep texts w2 hw2
    exact ⟨w1, w2, rfl, hw.1, hw2, hq1.1, hq1.2, hq2.1, hq2.2⟩
  · intro h
    have hbs : bigramsOf texts = [] := by
      rw [bigramsOf]
      rcases hws : allWords texts with _ | ⟨w, rest⟩
      · simp
      · rcases rest with _ | ⟨w2, r2⟩
        · simp
        · rw [hws] at h
          simp only [List.length_cons] at h
          omega
    simp [get_trending_keywords, rankedBigrams, rankedAll, hbs, firstUniq,
      firstUniqAux, iSort]
  · intro x hx
    rw [hrb] at hx
    have hx2 := List.Sublist.mem hx (List.take_sublist 5 (rankedAll texts))
    rw [rankedAll, mem_iSort] at hx2
    obtain ⟨bg, _, rfl⟩ := List.mem_map.1 hx2
    rfl
  · rw [hrb]
    exact List.Pairwise.sublist (List.take_sublist 5 _) (rankedAll_pairwise texts)
  · intro b hb hnot x hx
    rw [hrb] at hnot hx
    have hmem : (b, (bigramsOf texts).count b) ∈ rankedAll texts := by
      rw [rankedAll, mem_iSort]
      exact List.mem_map_of_mem _ ((mem_firstUniq _ _).2 hb)
    have hsplit := List.take_append_drop 5 (rankedAll texts)
    have hPW := rankedAll_pairwise texts
    rw [← hsplit] at hPW hmem
    rcases List.mem_append.1 hmem with hin | hin
    · exact absurd (List.mem_map_of_mem Prod.fst hin) hnot
    · exact ((List.pairwise_append.1 hPW).2.2 x hx (b, (bigramsOf texts).count b) hin).1

theorem claim_C5_witness :
    get_trending_keywords ["vitamin c".data] = [] :=
  (claim_C5 ["vitamin c".data]).2.2.1 (by decide)

/-- C8 (amended): on every path other than the unhandled href-less-link one,
`trace_manufacturer` returns a result pair whose first component is a
discovered URL, Not Found, or Search Failed; a run returns exactly the pair
(Search Failed, error note) if and only if the request raised a
`requests.RequestException` (connection error, timeout, or non-success HTTP
status via `raise_for_status`); and the function raises — an uncaught
`KeyError` from `link['href']` — exactly when the parsed page's first
`result__a` link exists but carries no `href` attribute. -/
theorem claim_C8 : ∀ (unquote : List Char → List Char) (net : NetResponse) (p : List Char),
    (net = NetResponse.failure →
      trace_manufacturer unquote net p = Except.ok (searchFailedStr, errNote))
    ∧ (∀ r, trace_manufacturer unquote net p = Except.ok r →
        (r.1 = notFoundStr ∨ r.1 = searchFailedStr
          ∨ ∃ href, net = NetResponse.ok (some (some href))
              ∧ r.1 = cleanUrl unquote href))
    ∧ (trace_manufacturer unquote net p = Except.ok (searchFailedStr, errNote) →
        net = NetResponse.failure)
    ∧ (∀ e, trace_manufacturer unquote net p = Except.error e ↔
        (net = NetResponse.ok (some none) ∧ e = PyException.keyError)) := by
  intro unquote net p
  rcases net with _ | tag
  · refine ⟨fun _ => rfl, ?_, fun _ => rfl, ?_⟩
    · intro r hr
      simp only [trace_manufacturer, Except.ok.injEq] at hr
      rw [← hr]
      exact Or.inr (Or.inl rfl)
    · intro e
      constructor
      · intro h
        simp only [trace_manufacturer] at h
        exact absurd h (by simp)
      · rintro ⟨h, _⟩
        exact absurd h (by simp)
  · rcases tag with _ | attr
    · refine ⟨?_, ?_, ?_, ?_⟩
      · intro h
        exact absurd h (by simp)
      · intro r hr
        simp only [trace_manufacturer, Except.ok.injEq] at hr
        rw [← hr]
        exact Or.inl rfl
      · intro h
        simp only [trace_manufacturer, Except.ok.injEq] at h
        have h3 : notFoundStr = searchFailedStr := congrArg Prod.fst h
        exact absurd h3 (by decide)
      · intro e
        constructor
        · intro h
          simp only [trace_manufacturer] at h
          exact absurd h (by simp)
        · rintro ⟨h, _⟩
          exact absurd h (by simp)
    · rcases attr with _ | href
      · refine ⟨?_, ?_, ?_, ?_⟩
        · intro h
          exact absurd h (by simp)
        · intro r hr
          simp only [trace_manufacturer] at hr
          exact absurd hr (by simp)
        · intro h
          simp only [trace_manufacturer] at h
          exact absurd h (by simp)
        · intro e
          constructor
          · intro h
            refine ⟨rfl, ?_⟩
            cases e
            rfl
          · rintro ⟨_, rfl⟩
            rfl
      · by_cases hh : href = []
        · refine ⟨?_, ?_, ?_, ?_⟩
          · intro h
            exact absurd h (by simp)
          · intro r hr
            simp only [trace_manufacturer, if_pos hh, Except.ok.injEq] at hr
            rw [← hr]
            exact Or.inl rfl
          · intro h
            simp only [trace_manufacturer, if_pos hh, Except.ok.injEq] at h
            have h3 : notFoundStr = searchFailedStr := congrArg Prod.fst h
            exact absurd h3 (by decide)
          · intro e
            constructor
            · intro h
              simp only [trace_manufacturer, if_pos hh] at h
              exact absurd h (by simp)
            · rintro ⟨h, _⟩
              simp at h
        · refine ⟨?_, ?_, ?_, ?_⟩
          · intro h
            exact absurd h (by simp)
          · intro r hr
            simp only [trace_manufacturer, if_neg hh, Except.ok.injEq] at hr
            refine Or.inr (Or.inr ⟨href, rfl, ?_⟩)
            rw [← hr]
          · intro h
            simp only [trace_manufacturer, if_neg hh, Except.ok.injEq] at h
            have h3 : successNote = errNote := congrArg Prod.snd h
            exact absurd h3 (by decide)
          · intro e
            constructor
            · intro h
              simp only [trace_manufacturer, if_neg hh] at h
              exact absurd h (by simp)
            · rintro ⟨h, _⟩
              simp at h

/-- C8 counterexample: on a parsed page whose first `result__a` link has no
`href` attribute, `link['href']` raises a `KeyError` that the
`except requests.RequestException` clause does not catch, so
`trace_manufacturer` raises on this input — refuting the claim that it never
raises. -/
theorem claim_C8_counterexample :
    trace_manufacturer id (NetResponse.ok (some none)) ("CeraVe".data)
      = Except.error PyException.keyError := rfl

theorem claim_C8_witness :
    trace_manufacturer id NetResponse.failure ("CeraVe".data)
      = Except.ok (searchFailedStr, errNote) :=
  (claim_C8 id NetResponse.failure ("CeraVe".data)).1 rfl

theorem lookupTargets_flat (ps : List (List Char)) :
    lookupTargets (ps.flatMap (fun p => [TraceEvent.lookup p, TraceEvent.sleepHalfSec]))
      = ps := by
  induction ps with
  | nil => rfl
  | cons p ps ih =>
      rw [List.flatMap_cons, lookupTargets, List.filterMap_append]
      rw [lookupTargets] at ih
      rw [ih]
      rfl

theorem countP_isLookup (evs : List TraceEvent) :
    evs.countP isLookup = (lookupTargets evs).length := by
  induction evs with
  | nil => rfl
  | cons e evs ih =>
      cases e <;>
        simp [List.countP_cons, lookupTargets, List.filterMap_cons, isLookup, ih]

theorem sleep_between :
    ∀ (ps : List (List Char)) (pre mid suf : List TraceEvent) (p q : List Char),
      ps.flatMap (fun r => [TraceEvent.lookup r, TraceEvent.sleepHalfSec])
        = pre ++ TraceEvent.lookup p :: (mid ++ TraceEvent.lookup q :: suf) →
      TraceEvent.sleepHalfSec ∈ mid
  | [], pre, mid, suf, p, q, heq => by
      have := congrArg List.length heq
      simp [List.length_append] at this
      omega
  | r :: ps, pre, mid, suf, p, q, heq => by
      rw [List.flatMap_cons] at heq
      simp only [List.cons_append, List.nil_append] at heq
      rcases pre with _ | ⟨e, pre⟩
      · simp only [List.nil_append] at heq
        injection heq with h1 h2
        rcases mid with _ | ⟨m, mid⟩
        · simp only [List.nil_append] at h2
          injection h2 with h3 _
          exact TraceEvent.noConfusion h3
        · simp only [List.cons_append] at h2
          injection h2 with h3 _
          rw [← h3]
          exact List.mem_cons_self _ _
      · simp only [List.cons_append] at heq
        injection heq with h1 h2
        rcases pre with _ | ⟨e2, pre⟩
        · simp only [List.nil_append] at h2
          injection h2 with h3 _
          exact TraceEvent.noConfusion h3
        · simp only [List.cons_append] at h2
          injection h2 with h3 h4
          exact sleep_between ps pre mid suf p q h4

/-- C9 (amended): in every analysis run with a non-empty summary, the
manufacturer lookup is invoked at most twice, exactly once for each of the
first two distinct products in summary row order
(`df_summary['Product Name'].unique()[:2]` — products ordered by their
highest-count row, not by per-product mention totals), each looked-up product
is the product of some summary row, and between any two lookup calls the
half-second sleep occurs. -/
theorem claim_C9_amended : ∀ (sortValues : List (Mention × Nat) → List (Mention × Nat))
    (scorer : List Char → ℚ) (texts prods : List (List Char))
    (ck : List (List Char × List (List Char))) (plat : List Char)
    (s : List (Mention × Nat)),
    s = analyze_product_mentions sortValues scorer texts prods ck plat → s ≠ [] →
    lookupTargets (manufacturerPhase s)
      = (firstUniq (s.map (fun r => r.1.productName))).take 2
    ∧ (manufacturerPhase s).countP isLookup ≤ 2
    ∧ (lookupTargets (manufacturerPhase s)).Nodup
    ∧ (∀ p ∈ lookupTargets (manufacturerPhase s), ∃ r ∈ s, r.1.productName = p)
    ∧ (∀ pre mid suf p q, manufacturerPhase s
        = pre ++ TraceEvent.lookup p :: (mid ++ TraceEvent.lookup q :: suf) →
        TraceEvent.sleepHalfSec ∈ mid) := by
  intro sortValues scorer texts prods ck plat s _ hs
  have hphase : manufacturerPhase s = (top_2_products s).flatMap
      (fun p => [TraceEvent.lookup p, TraceEvent.sleepHalfSec]) := if_neg hs
  refine ⟨?_, ?_, ?_, ?_, ?_⟩
  · rw [hphase, lookupTargets_flat]
    rfl
  · rw [countP_isLookup, hphase, lookupTargets_flat, top_2_products, List.length_take]
    exact min_le_left _ _
  · rw [hphase, lookupTargets_flat, top_2_products]
    exact List.Nodup.sublist (List.take_sublist _ _) (nodup_firstUniq _)
  · intro p hp
    rw [hphase, lookupTargets_flat, top_2_products] at hp
    have hp2 := List.Sublist.mem hp (List.take_sublist 2 _)
    rw [mem_firstUniq] at hp2
    obtain ⟨r, hr, heq⟩ := List.mem_map.1 hp2
    exact ⟨r, hr, heq⟩
  · intro pre mid suf p q heq
    rw [hphase] at heq
    exact sleep_between (top_2_products s) pre mid suf p q heq

theorem claim_C9_witness :
    (manufacturerPhase c9summary).countP isLookup ≤ 2
    ∧ (lookupTargets (manufacturerPhase c9summary)).Nodup := by
  have h := claim_C9_amended quicksortModel zeroScorer c9texts c9prods CLAIM_KEYWORDS
    c9platform c9summary rfl (by decide)
  exact ⟨h.2.1, h.2.2.1⟩

/-- C9 counterexample: a concrete analysis run with a non-empty summary in
which CeraVe has strictly the most mentions (4, all other products 3) yet is
not among the products looked up — the code takes the first two distinct
products of the row-sorted summary (`unique()[:2]`), which ranks products by
their highest single row count, not by mention count. -/
theorem claim_C9_counterexample :
    c9summary ≠ []
    ∧ productTotal c9summary ("CeraVe".data) = 4
    ∧ (∀ r ∈ c9summary, r.1.productName ≠ "CeraVe".data →
        productTotal c9summary r.1.productName < 4)
    ∧ "CeraVe".data ∉ lookupTargets (manufacturerPhase c9summary) := by
  refine ⟨by decide, by decide, by decide, by decide⟩

theorem lastCtx_cons (c : Char) (pre : List Char) (prev : Option Char) :
    lastCtx (c :: pre) prev = lastCtx pre (some c) := by
  simp only [lastCtx, List.getLast?_cons]
  cases hp : pre.getLast? <;> simp [hp]

theorem lastCtx_none (pre : List Char) : lastCtx pre none = pre.getLast? := by
  simp only [lastCtx]
  cases pre.getLast? <;> rfl

theorem matchHere_iff (pat : List Char) (hne : pat ≠ [])
    (h1 : optWord pat.head? = true) (h2 : optWord pat.getLast? = true)
    (prev : Option Char) (s : List Char) :
    matchHere prev pat s = true ↔
      ∃ post, s = pat ++ post ∧ optWord prev = false ∧ optWord post.head? = false := by
  have hex : ∃ c, pat.getLast? = some c := by
    cases hgl : pat.getLast? with
    | none => rw [hgl] at h2; simp [optWord] at h2
    | some c => exact ⟨c, rfl⟩
  obtain ⟨c, hc⟩ := hex
  have hctx : lastCtx pat prev = some c := by simp [lastCtx, hc]
  have hcw : isWordChar c = true := by rw [hc] at h2; simpa [optWord] using h2
  constructor
  · intro h
    simp only [matchHere, Bool.and_eq_true] at h
    obtain ⟨⟨hpre, hleft⟩, hright⟩ := h
    obtain ⟨post, hpost⟩ := isPrefixOf_iff_ex.1 hpre
    refine ⟨post, hpost, ?_, ?_⟩
    · have hs : s.head? = pat.head? := by
        rw [hpost]
        cases pat with
        | nil => exact absurd rfl hne
        | cons a l => rfl
      rw [hs] at hleft
      simp only [atBoundary, h1] at hleft
      simpa using hleft
    · rw [hpost, List.drop_left, hctx] at hright
      simp only [atBoundary, optWord, hcw] at hright
      simpa using hright
  · rintro ⟨post, rfl, hprev, hpost⟩
    simp only [matchHere, Bool.and_eq_true]
    refine ⟨⟨isPrefixOf_iff_ex.2 ⟨post, rfl⟩, ?_⟩, ?_⟩
    · have hh : (pat ++ post).head? = pat.head? := by
        cases pat with
        | nil => exact absurd rfl hne
        | cons a l => rfl
      rw [hh]
      simp [atBoundary, h1, hprev]
    · rw [List.drop_left, hctx]
      simp only [atBoundary]
      rw [hpost]
      simp [optWord, hcw]

theorem searchFrom_iff (pat : List Char) (hne : pat ≠ [])
    (h1 : optWord pat.head? = true) (h2 : optWord pat.getLast? = true) :
    ∀ (s : List Char) (prev : Option Char),
      searchFrom pat prev s = true ↔
        ∃ pre post, s = pre ++ (pat ++ post)
          ∧ optWord (lastCtx pre prev) = false ∧ optWord post.head? = false
  | [], prev => by
      show matchHere prev pat [] = true ↔ _
      rw [matchHere_iff pat hne h1 h2]
      constructor
      · rintro ⟨post, hp, _, _⟩
        cases pat with
        | nil => exact absurd rfl hne
        | cons a l => simp at hp
      · rintro ⟨pre, post, hp, _, _⟩
        rw [eq_comm, List.append_eq_nil] at hp
        obtain ⟨_, hp2⟩ := hp
        rw [List.append_eq_nil] at hp2
        exact absurd hp2.1 hne
  | c :: rest, prev => by
      show (matchHere prev pat (c :: rest) || searchFrom pat (some c) rest) = true ↔ _
      rw [Bool.or_eq_true, matchHere_iff pat hne h1 h2,
        searchFrom_iff pat hne h1 h2 rest (some c)]
      constructor
      · rintro (⟨post, hp, hprev, hpost⟩ | ⟨pre, post, hp, hctx, hpost⟩)
        · refine ⟨[], post, by simpa using hp, ?_, hpost⟩
          simpa [lastCtx] using hprev
        · refine ⟨c :: pre, post, by simp [hp], ?_, hpost⟩
          rwa [lastCtx_cons]
      · rintro ⟨pre, post, hp, hctx, hpost⟩
        cases pre with
        | nil =>
            refine Or.inl ⟨post, by simpa using hp, ?_, hpost⟩
            simpa [lastCtx] using hctx
        | cons c' pre' =>
            simp only [List.cons_append, List.cons.injEq] at hp
            obtain ⟨rfl, hp2⟩ := hp
            refine Or.inr ⟨pre', post, hp2, ?_, hpost⟩
            rwa [lastCtx_cons] at hctx

theorem wwMatchB_iff (p t : List Char) (hp : wordEnds p = true) :
    wwMatchB p t = true ↔ WholeWordIn p t := by
  have hp2 := hp
  simp only [wordEnds, Bool.and_eq_true] at hp2
  have h1 : optWord (lowerL p).head? = true := hp2.1
  have h2 : optWord (lowerL p).getLast? = true := hp2.2
  have hne : lowerL p ≠ [] := by
    cases hl : lowerL p with
    | nil => rw [hl] at h1; simp [optWord] at h1
    | cons a l => simp
  rw [wwMatchB, reWordSearch, searchFrom_iff (lowerL p) hne h1 h2 (lowerL t) none]
  unfold WholeWordIn
  constructor
  · rintro ⟨pre, post, hp3, hctx, hpost⟩
    rw [lastCtx_none] at hctx
    exact ⟨pre, post, hp3, hctx, hpost⟩
  · rintro ⟨pre, post, hp3, hlast, hpost⟩
    rw [← lastCtx_none pre] at hlast
    exact ⟨pre, post, hp3, hlast, hpost⟩

/-- C1: for products whose (lowered) name begins and ends with a word
character — true of every product in the selection list of the app — a
mention is emitted for a (comment, product) pair exactly when the lowered
product name occurs in the lowered comment bounded on each side by a
non-word character or the string edge; exactly one mention is emitted per
matched pair of loop positions (the length identity), and the code's regex
condition agrees with the bounded-occurrence predicate on every pair. -/
theorem claim_C1 : ∀ (scorer : List Char → ℚ) (texts prods : List (List Char))
    (ck : List (List Char × List (List Char))) (plat : List Char),
    (∀ p ∈ prods, wordEnds p = true) →
    (∀ m : Mention, m ∈ productMentions scorer texts prods ck plat ↔
        ∃ t ∈ texts, ∃ p ∈ prods, WholeWordIn p t ∧ m = mkMention scorer ck plat t p)
    ∧ (productMentions scorer texts prods ck plat).length
        = (texts.map (fun t => (prods.filter (fun p => wwMatchB p t)).length)).sum
    ∧ (∀ t ∈ texts, ∀ p ∈ prods, (wwMatchB p t = true ↔ WholeWordIn p t)) := by
  intro scorer texts prods ck plat hp
  refine ⟨?_, ?_, ?_⟩
  · intro m
    simp only [productMentions, List.mem_flatMap, List.mem_map, List.mem_filter]
    constructor
    · rintro ⟨t, ht, p, ⟨hpmem, hmatch⟩, rfl⟩
      exact ⟨t, ht, p, hpmem, (wwMatchB_iff p t (hp p hpmem)).1 hmatch, rfl⟩
    · rintro ⟨t, ht, p, hpmem, hww, rfl⟩
      exact ⟨t, ht, p, ⟨hpmem, (wwMatchB_iff p t (hp p hpmem)).2 hww⟩, rfl⟩
  · simp [productMentions, List.length_flatMap, Function.comp_def, List.length_map]
  · intro t _ p hpmem
    exact wwMatchB_iff p t (hp p hpmem)

theorem claim_C1_witness :
    (productMentions zeroScorer ["i love cerave".data] ["CeraVe".data]
        CLAIM_KEYWORDS ("TikTok".data)).length
      = (["i love cerave".data].map
          (fun t => (["CeraVe".data].filter (fun p => wwMatchB p t)).length)).sum :=
  (claim_C1 zeroScorer ["i love cerave".data] ["CeraVe".data] CLAIM_KEYWORDS
    ("TikTok".data) (by decide)).2.1
